import Mathlib

/-!
Verification of the CircleHash64f digest core (Go package `circlehash`).

The Go source operates on raw memory through `unsafe.Pointer`; here the
input is a list of bytes (`List Nat`, each entry a byte value) together
with an explicit length `dlen` and a read position, which mirrors the
pointer+length pair of the source.  Loops become well-founded recursion
on the remaining length.  All machine words are `Nat`; 64-bit overflow
is explicit via `% 2 ^ 64` wherever the source relies on wrap-around.
-/

namespace CircleHash

/-- The five π-derived constants `pi0..pi4` from the source constant block. -/
def pi0 : Nat := 0x243F6A8885A308D3

/-- Constant `pi1` from the source constant block. -/
def pi1 : Nat := 0x13198A2E03707344

/-- Constant `pi2` from the source constant block. -/
def pi2 : Nat := 0xA4093822299F31D0

/-- Constant `pi3` from the source constant block. -/
def pi3 : Nat := 0x082EFA98EC4E6C89

/-- Constant `pi4` from the source constant block. -/
def pi4 : Nat := 0x452821E638D01377

/-- Byte of the input at offset `i` (0 when out of range, which models
reading arbitrary memory: theorems about in-bounds behaviour never rely
on the default). -/
def byteAt (dat : List Nat) (i : Nat) : Nat := dat.getD i 0

/-- Modelled from the spec: `mix64` is not under src/; the spec defines it as
the full 128-bit unsigned product of `a` and `b`, split into upper and lower
64-bit halves, combined by XOR. -/
def mix64 (a b : Nat) : Nat :=
  let p := a * b
  (p / 2 ^ 64) ^^^ (p % 2 ^ 64)

/-- Modelled from the spec: `readUnaligned64` is not under src/; the spec
reads a 64-bit little-endian word at byte offset `i`. -/
def readUnaligned64 (dat : List Nat) (i : Nat) : Nat :=
  byteAt dat i |||
  byteAt dat (i + 1) <<< 8 |||
  byteAt dat (i + 2) <<< 16 |||
  byteAt dat (i + 3) <<< 24 |||
  byteAt dat (i + 4) <<< 32 |||
  byteAt dat (i + 5) <<< 40 |||
  byteAt dat (i + 6) <<< 48 |||
  byteAt dat (i + 7) <<< 56

/-- Modelled from the spec: `readUnaligned32` is not under src/; the spec
reads a 32-bit little-endian word at byte offset `i`. -/
def readUnaligned32 (dat : List Nat) (i : Nat) : Nat :=
  byteAt dat i |||
  byteAt dat (i + 1) <<< 8 |||
  byteAt dat (i + 2) <<< 16 |||
  byteAt dat (i + 3) <<< 24

/-- The 64-byte bulk loop of `circle64f`
(`for ; dlen > 64; dlen -= 64 { ... }`): state is
(position, currentState, duplicatedState, remaining length), returned
in that order. -/
def bulkLoop (dat : List Nat) (pos cs ds dlen : Nat) : Nat × Nat × Nat × Nat :=
  if h : 64 < dlen then
    let a := readUnaligned64 dat pos
    let b := readUnaligned64 dat (pos + 8)
    let c := readUnaligned64 dat (pos + 16)
    let d := readUnaligned64 dat (pos + 24)
    let e := readUnaligned64 dat (pos + 32)
    let f := readUnaligned64 dat (pos + 40)
    let g := readUnaligned64 dat (pos + 48)
    let h8 := readUnaligned64 dat (pos + 56)
    let cs0 := mix64 (a ^^^ pi1) (b ^^^ cs)
    let cs1 := mix64 (c ^^^ pi2) (d ^^^ cs)
    let ds0 := mix64 (e ^^^ pi3) (f ^^^ ds)
    let ds1 := mix64 (g ^^^ pi4) (h8 ^^^ ds)
    bulkLoop dat (pos + 64) (cs0 ^^^ cs1) (ds0 ^^^ ds1) (dlen - 64)
  else
    (pos, cs, ds, dlen)
termination_by dlen
decreasing_by omega

/-- The 16-byte loop shared by `circle64f` and `circle64fShortInput`
(`for ; dlen > 16; dlen -= 16 { ... }`): state is
(position, currentState, remaining length). -/
def mediumLoop (dat : List Nat) (pos cs dlen : Nat) : Nat × Nat × Nat :=
  if h : 16 < dlen then
    let a := readUnaligned64 dat pos
    let b := readUnaligned64 dat (pos + 8)
    mediumLoop dat (pos + 16) (mix64 (a ^^^ pi1) (b ^^^ cs)) (dlen - 16)
  else
    (pos, cs, dlen)
termination_by dlen
decreasing_by omega

/-- The tail switch and finalization shared verbatim by `circle64f` and
`circle64fShortInput` (cases `dlen > 8`, `dlen > 3`, `dlen > 0`, default). -/
def tailFinalize (dat : List Nat) (pos cs dlen startingLength : Nat) : Nat :=
  let ab : Nat × Nat :=
    if 8 < dlen then
      (readUnaligned64 dat pos, readUnaligned64 dat (pos + (dlen - 8)))
    else if 3 < dlen then
      (readUnaligned32 dat pos, readUnaligned32 dat (pos + (dlen - 4)))
    else if 0 < dlen then
      (byteAt dat pos <<< 16 |||
         byteAt dat (pos + dlen >>> 1) <<< 8 |||
         byteAt dat (pos + (dlen - 1)),
       0)
    else
      (0, 0)
  let w := mix64 (ab.1 ^^^ pi1) (ab.2 ^^^ cs)
  let z := pi4 ^^^ startingLength
  mix64 w z

/-- `circle64fShortInput` from circlehash64.go: digest of an input of
length up to 64 bytes (no bulk phase). -/
def circle64fShortInput (dat : List Nat) (seed dlen : Nat) : Nat :=
  let startingLength := dlen
  let s := mediumLoop dat 0 (seed ^^^ pi0) dlen
  tailFinalize dat s.1 s.2.1 s.2.2 startingLength

/-- `circle64f` from circlehash64.go: digest of an input of any length
(bulk phase for `dlen > 64`, then 16-byte loop, then tail). -/
def circle64f (dat : List Nat) (seed dlen : Nat) : Nat :=
  let startingLength := dlen
  let s0 : Nat × Nat × Nat :=
    if 64 < dlen then
      let t := bulkLoop dat 0 (seed ^^^ pi0) (seed ^^^ pi0) dlen
      (t.1, t.2.1 ^^^ t.2.2.1, t.2.2.2)
    else
      (0, seed ^^^ pi0, dlen)
  let s1 := mediumLoop dat s0.1 s0.2.1 s0.2.2
  tailFinalize dat s1.1 s1.2.1 s1.2.2 startingLength

/-- `circle64fUint64x2` from circlehash64.go: digest of exactly two
64-bit words, with `dataLen = 16`. -/
def circle64fUint64x2 (a b seed : Nat) : Nat :=
  let dataLen : Nat := 16
  let currentState := seed ^^^ pi0
  let w := mix64 (a ^^^ pi1) (b ^^^ currentState)
  let z := pi4 ^^^ dataLen
  mix64 w z

/-- `Hash64` from circlehash64.go (go1.17 build): dispatches to
`circle64fShortInput` for lengths up to 64 and `circle64f` otherwise,
passing the slice length as `dlen`. -/
def Hash64 (b : List Nat) (seed : Nat) : Nat :=
  if 64 < b.length then circle64f b seed b.length
  else circle64fShortInput b seed b.length

/-- The bytes of a Go string: its UTF-8 byte sequence. -/
def stringBytes (s : String) : List Nat :=
  s.toUTF8.toList.map (fun c => c.toNat)

/-- `Hash64String` from circlehash64.go (go1.17 build): same dispatch as
`Hash64`, applied to the string's bytes and byte length. -/
def Hash64String (s : String) (seed : Nat) : Nat :=
  if 64 < (stringBytes s).length then circle64f (stringBytes s) seed (stringBytes s).length
  else circle64fShortInput (stringBytes s) seed (stringBytes s).length

/-- `Hash64Uint64x2` from circlehash64.go: wraps `circle64fUint64x2`. -/
def Hash64Uint64x2 (a b seed : Nat) : Nat :=
  circle64fUint64x2 a b seed

/-- `Hash64` of the pre-go1.17 reference build (src/unnamed/part_002):
always calls `circle64f`, with no short-input dispatch. -/
def Hash64Ref (b : List Nat) (seed : Nat) : Nat :=
  circle64f b seed b.length

/-! ### Unfolding lemmas for the loops -/

lemma bulkLoop_step {dat : List Nat} {pos cs ds dlen : Nat} (h : 64 < dlen) :
    bulkLoop dat pos cs ds dlen =
      bulkLoop dat (pos + 64)
        (mix64 (readUnaligned64 dat pos ^^^ pi1) (readUnaligned64 dat (pos + 8) ^^^ cs) ^^^
          mix64 (readUnaligned64 dat (pos + 16) ^^^ pi2) (readUnaligned64 dat (pos + 24) ^^^ cs))
        (mix64 (readUnaligned64 dat (pos + 32) ^^^ pi3) (readUnaligned64 dat (pos + 40) ^^^ ds) ^^^
          mix64 (readUnaligned64 dat (pos + 48) ^^^ pi4) (readUnaligned64 dat (pos + 56) ^^^ ds))
        (dlen - 64) := by
  rw [bulkLoop]
  simp [h]

lemma bulkLoop_exit {dat : List Nat} {pos cs ds dlen : Nat} (h : ¬ 64 < dlen) :
    bulkLoop dat pos cs ds dlen = (pos, cs, ds, dlen) := by
  rw [bulkLoop]
  simp [h]

lemma mediumLoop_step {dat : List Nat} {pos cs dlen : Nat} (h : 16 < dlen) :
    mediumLoop dat pos cs dlen =
      mediumLoop dat (pos + 16)
        (mix64 (readUnaligned64 dat pos ^^^ pi1) (readUnaligned64 dat (pos + 8) ^^^ cs))
        (dlen - 16) := by
  rw [mediumLoop]
  simp [h]

lemma mediumLoop_exit {dat : List Nat} {pos cs dlen : Nat} (h : ¬ 16 < dlen) :
    mediumLoop dat pos cs dlen = (pos, cs, dlen) := by
  rw [mediumLoop]
  simp [h]

/-- Shared lemma: for lengths at most 64 the general path never enters the
bulk phase, so it coincides with the short-input path. -/
lemma circle64f_eq_shortInput_of_le {dat : List Nat} {seed dlen : Nat}
    (h : dlen ≤ 64) :
    circle64f dat seed dlen = circle64fShortInput dat seed dlen := by
  simp only [circle64f, circle64fShortInput]
  rw [if_neg (by omega)]

/-! ### Claim theorems: equivalences and concrete vectors -/

/-- Claim C1: for every input length `dlen ≤ 64`, every byte content of that
length and every 64-bit seed, the short-input fast path `circle64fShortInput`
returns exactly the same digest as the general path `circle64f`. -/
theorem circle64fShortInput_eq_circle64f (dat : List Nat) (seed dlen : Nat)
    (hlen : dat.length = dlen) (hlen64 : dlen ≤ 64) (hseed : seed < 2 ^ 64) :
    circle64fShortInput dat seed dlen = circle64f dat seed dlen :=
  (circle64f_eq_shortInput_of_le hlen64).symm

/-- Witness for C1 at a concrete 3-byte input and seed 5. -/
theorem circle64fShortInput_eq_circle64f_witness :
    ([1, 2, 3] : List Nat).length = 3 ∧ 3 ≤ 64 ∧ 5 < 2 ^ 64 ∧
      circle64fShortInput [1, 2, 3] 5 3 = circle64f [1, 2, 3] 5 3 :=
  ⟨by decide, by decide, by decide,
    circle64fShortInput_eq_circle64f [1, 2, 3] 5 3 (by decide) (by decide) (by decide)⟩

/-- Claim C2: for every 16-byte buffer `dat`, with `a` the first 8 bytes
little-endian and `b` the last 8 bytes little-endian, and every seed,
`Hash64Uint64x2 a b seed = Hash64 dat seed`. -/
theorem hash64Uint64x2_eq_hash64 (dat : List Nat) (seed : Nat)
    (hlen : dat.length = 16) :
    Hash64Uint64x2 (readUnaligned64 dat 0) (readUnaligned64 dat 8) seed =
      Hash64 dat seed := by
  simp only [Hash64, hlen]
  rw [if_neg (by omega)]
  simp only [circle64fShortInput]
  rw [mediumLoop_exit (by omega)]
  simp only [tailFinalize, Hash64Uint64x2, circle64fUint64x2]
  norm_num

/-- Witness for C2 at the concrete buffer `[0, 1, ..., 15]` and seed 7. -/
theorem hash64Uint64x2_eq_hash64_witness :
    (List.range 16).length = 16 ∧
      Hash64Uint64x2 (readUnaligned64 (List.range 16) 0)
          (readUnaligned64 (List.range 16) 8) 7 =
        Hash64 (List.range 16) 7 :=
  ⟨by decide, hash64Uint64x2_eq_hash64 (List.range 16) 7 (by decide)⟩

/-- Claim C5: for every pair of 64-bit values, `mix64 a b` is the XOR of the
upper and lower 64-bit halves of the full 128-bit product `a * b` (the product
fits in 128 bits), and this differs from folding the 64-bit truncated product
(shown at `a = b = 2 ^ 32`). -/
theorem mix64_full_product (a b : Nat) (ha : a < 2 ^ 64) (hb : b < 2 ^ 64) :
    a * b < 2 ^ 128 ∧
    mix64 a b = ((a * b) >>> 64) ^^^ ((a * b) % 2 ^ 64) ∧
    mix64 (2 ^ 32) (2 ^ 32) ≠ (2 ^ 32 * 2 ^ 32) % 2 ^ 64 := by
  refine ⟨?_, ?_, by decide⟩
  · have h1 : a ≤ 2 ^ 64 - 1 := by omega
    have h2 : b ≤ 2 ^ 64 - 1 := by omega
    calc a * b ≤ (2 ^ 64 - 1) * (2 ^ 64 - 1) := Nat.mul_le_mul h1 h2
      _ < 2 ^ 128 := by norm_num
  · simp [mix64, Nat.shiftRight_eq_div_pow]

/-- Witness for C5 at `a = 3`, `b = 5`. -/
theorem mix64_full_product_witness :
    3 < 2 ^ 64 ∧ 5 < 2 ^ 64 ∧
      (3 * 5 < 2 ^ 128 ∧
        mix64 3 5 = ((3 * 5) >>> 64) ^^^ ((3 * 5) % 2 ^ 64) ∧
        mix64 (2 ^ 32) (2 ^ 32) ≠ (2 ^ 32 * 2 ^ 32) % 2 ^ 64) :=
  ⟨by decide, by decide, mix64_full_product 3 5 (by decide) (by decide)⟩

/-- Claim C6: the pre-go1.17 reference `Hash64` (always `circle64f`) returns
the same digest as the go1.17 `Hash64` (dispatching on length 64) for every
byte sequence and seed. -/
theorem hash64_ref_eq_hash64 (b : List Nat) (seed : Nat) :
    Hash64Ref b seed = Hash64 b seed := by
  simp only [Hash64Ref, Hash64]
  by_cases h : 64 < b.length
  · rw [if_pos h]
  · rw [if_neg h, circle64f_eq_shortInput_of_le (by omega)]

/-- Claim C7: `Hash64String` of a string equals `Hash64` of the string's
byte sequence, for every string and seed. -/
theorem hash64String_eq_hash64 (s : String) (seed : Nat) :
    Hash64String s seed = Hash64 (stringBytes s) seed := rfl

/-- Claim C8: `Hash64` of the empty input returns the three published
digests for seeds 0, `0xFFFFFFFFFFFFFFFF` and `0x9E3779B97F4A7C15`, and the
three digests are pairwise distinct. -/
theorem hash64_empty_input_vectors :
    Hash64 [] 0x0000000000000000 = 0x53097B8ED678AF76 ∧
    Hash64 [] 0xFFFFFFFFFFFFFFFF = 0x687B6E5DE386D50D ∧
    Hash64 [] 0x9E3779B97F4A7C15 = 0x153AF508A10A0825 ∧
    Hash64 [] 0x0000000000000000 ≠ Hash64 [] 0xFFFFFFFFFFFFFFFF ∧
    Hash64 [] 0x0000000000000000 ≠ Hash64 [] 0x9E3779B97F4A7C15 ∧
    Hash64 [] 0xFFFFFFFFFFFFFFFF ≠ Hash64 [] 0x9E3779B97F4A7C15 := by
  have h : ∀ s : Nat, Hash64 [] s = tailFinalize [] 0 (s ^^^ pi0) 0 0 := by
    intro s
    simp only [Hash64, List.length_nil]
    rw [if_neg (by omega)]
    simp only [circle64fShortInput]
    rw [mediumLoop_exit (by omega)]
  refine ⟨?_, ?_, ?_, ?_, ?_, ?_⟩ <;> simp only [h] <;> decide

/-! ### Tail and bulk phase structure -/

lemma tailFinalize_cases (dat : List Nat) (pos cs dlen sl : Nat) :
    tailFinalize dat pos cs dlen sl =
      mix64
        (mix64
          ((if 8 < dlen then readUnaligned64 dat pos
            else if 3 < dlen then readUnaligned32 dat pos
            else if 0 < dlen then
              byteAt dat pos <<< 16 ||| byteAt dat (pos + dlen >>> 1) <<< 8 |||
                byteAt dat (pos + (dlen - 1))
            else 0) ^^^ pi1)
          ((if 8 < dlen then readUnaligned64 dat (pos + (dlen - 8))
            else if 3 < dlen then readUnaligned32 dat (pos + (dlen - 4))
            else 0) ^^^ cs))
        (pi4 ^^^ sl) := by
  simp only [tailFinalize]
  by_cases h8 : 8 < dlen
  · simp [h8]
  · by_cases h3 : 3 < dlen
    · simp [h8, h3]
    · by_cases h0 : 0 < dlen
      · simp [h8, h3, h0]
      · simp [h8, h3, h0]

lemma bulkLoop_rem_le (dat : List Nat) (d : Nat) :
    ∀ pos cs ds, (bulkLoop dat pos cs ds d).2.2.2 ≤ 64 := by
  induction d using Nat.strong_induction_on with
  | _ d ih =>
    intro pos cs ds
    by_cases h : 64 < d
    · rw [bulkLoop_step h]
      exact ih (d - 64) (by omega) _ _ _
    · rw [bulkLoop_exit h]
      show d ≤ 64
      omega

lemma bulkLoop_rem_pos (dat : List Nat) (d : Nat) :
    ∀ pos cs ds, 1 ≤ d → 1 ≤ (bulkLoop dat pos cs ds d).2.2.2 := by
  induction d using Nat.strong_induction_on with
  | _ d ih =>
    intro pos cs ds hd
    by_cases h : 64 < d
    · rw [bulkLoop_step h]
      exact ih (d - 64) (by omega) _ _ _ (by omega)
    · rw [bulkLoop_exit h]
      show 1 ≤ d
      omega

/-- Claim C3: for every input and seed, after the bulk and 16-byte loops the
digest is `mix64 (mix64 (a ^^^ pi1) (b ^^^ currentState)) (pi4 ^^^
startingLength)` where the tail values `a`, `b` are selected from the
remaining length exactly as in the source's tail switch. -/
theorem circle64f_tail_finalization (dat : List Nat) (seed dlen : Nat) :
    circle64f dat seed dlen =
      (let s0 : Nat × Nat × Nat :=
        if 64 < dlen then
          let t := bulkLoop dat 0 (seed ^^^ pi0) (seed ^^^ pi0) dlen
          (t.1, t.2.1 ^^^ t.2.2.1, t.2.2.2)
        else (0, seed ^^^ pi0, dlen)
      let s1 := mediumLoop dat s0.1 s0.2.1 s0.2.2
      let a :=
        if 8 < s1.2.2 then readUnaligned64 dat s1.1
        else if 3 < s1.2.2 then readUnaligned32 dat s1.1
        else if 0 < s1.2.2 then
          byteAt dat s1.1 <<< 16 ||| byteAt dat (s1.1 + s1.2.2 >>> 1) <<< 8 |||
            byteAt dat (s1.1 + (s1.2.2 - 1))
        else 0
      let b :=
        if 8 < s1.2.2 then readUnaligned64 dat (s1.1 + (s1.2.2 - 8))
        else if 3 < s1.2.2 then readUnaligned32 dat (s1.1 + (s1.2.2 - 4))
        else 0
      mix64 (mix64 (a ^^^ pi1) (b ^^^ s1.2.1)) (pi4 ^^^ dlen)) := by
  simp only [circle64f]
  rw [tailFinalize_cases]

/-- Claim C4: for inputs longer than 64 bytes, `circle64f` runs the bulk
loop starting both accumulators at `seed ^^^ pi0`, folds them by XOR on
exit, each iteration updates the two accumulators by the stated `mix64`
formulas over the eight little-endian words of the 64-byte chunk and
advances 64 bytes, and the loop leaves a remaining length in 1..64. -/
theorem circle64f_bulk_phase (dat : List Nat) (seed dlen pos cs ds d : Nat)
    (hdlen : 64 < dlen) (hd : 64 < d) :
    circle64f dat seed dlen =
      (let t := bulkLoop dat 0 (seed ^^^ pi0) (seed ^^^ pi0) dlen
       let s1 := mediumLoop dat t.1 (t.2.1 ^^^ t.2.2.1) t.2.2.2
       tailFinalize dat s1.1 s1.2.1 s1.2.2 dlen) ∧
    bulkLoop dat pos cs ds d =
      bulkLoop dat (pos + 64)
        (mix64 (readUnaligned64 dat pos ^^^ pi1) (readUnaligned64 dat (pos + 8) ^^^ cs) ^^^
          mix64 (readUnaligned64 dat (pos + 16) ^^^ pi2) (readUnaligned64 dat (pos + 24) ^^^ cs))
        (mix64 (readUnaligned64 dat (pos + 32) ^^^ pi3) (readUnaligned64 dat (pos + 40) ^^^ ds) ^^^
          mix64 (readUnaligned64 dat (pos + 48) ^^^ pi4) (readUnaligned64 dat (pos + 56) ^^^ ds))
        (d - 64) ∧
    1 ≤ (bulkLoop dat pos cs ds d).2.2.2 ∧
    (bulkLoop dat pos cs ds d).2.2.2 ≤ 64 := by
  refine ⟨?_, bulkLoop_step hd, bulkLoop_rem_pos dat d pos cs ds (by omega),
    bulkLoop_rem_le dat d pos cs ds⟩
  simp only [circle64f]
  rw [if_pos hdlen]

/-! ### Read-offset instrumentation

The control flow of `circle64f` depends only on the length, so the set of
byte offsets it reads is a function of `dlen` alone.  The functions below
mirror the three phases, returning the offsets read together with the
final position and remaining length of each loop. -/

/-- Byte offsets read by one run of the bulk loop from `(pos, dlen)`,
with the loop's final position and remaining length. -/
def bulkPhaseOffsets (pos dlen : Nat) : List Nat × Nat × Nat :=
  if h : 64 < dlen then
    let t := bulkPhaseOffsets (pos + 64) (dlen - 64)
    ((List.range 64).map (pos + ·) ++ t.1, t.2)
  else ([], pos, dlen)
termination_by dlen
decreasing_by omega

/-- Byte offsets read by one run of the 16-byte loop from `(pos, dlen)`,
with the loop's final position and remaining length. -/
def mediumPhaseOffsets (pos dlen : Nat) : List Nat × Nat × Nat :=
  if h : 16 < dlen then
    let t := mediumPhaseOffsets (pos + 16) (dlen - 16)
    ((List.range 16).map (pos + ·) ++ t.1, t.2)
  else ([], pos, dlen)
termination_by dlen
decreasing_by omega

/-- Byte offsets read by the tail switch at `(pos, dlen)`. -/
def tailOffsets (pos dlen : Nat) : List Nat :=
  if 8 < dlen then
    (List.range 8).map (pos + ·) ++ (List.range 8).map (pos + (dlen - 8) + ·)
  else if 3 < dlen then
    (List.range 4).map (pos + ·) ++ (List.range 4).map (pos + (dlen - 4) + ·)
  else if 0 < dlen then
    [pos, pos + dlen >>> 1, pos + (dlen - 1)]
  else []

/-- All byte offsets read by `circle64f` on an input of length `dlen`. -/
def circle64fOffsets (dlen : Nat) : List Nat :=
  let s0 := if 64 < dlen then bulkPhaseOffsets 0 dlen else ([], 0, dlen)
  let s1 := mediumPhaseOffsets s0.2.1 s0.2.2
  s0.1 ++ s1.1 ++ tailOffsets s1.2.1 s1.2.2

lemma bulkPhaseOffsets_step {pos dlen : Nat} (h : 64 < dlen) :
    bulkPhaseOffsets pos dlen =
      ((List.range 64).map (pos + ·) ++ (bulkPhaseOffsets (pos + 64) (dlen - 64)).1,
        (bulkPhaseOffsets (pos + 64) (dlen - 64)).2) := by
  rw [bulkPhaseOffsets]
  simp [h]

lemma bulkPhaseOffsets_exit {pos dlen : Nat} (h : ¬ 64 < dlen) :
    bulkPhaseOffsets pos dlen = ([], pos, dlen) := by
  rw [bulkPhaseOffsets]
  simp [h]

lemma mediumPhaseOffsets_step {pos dlen : Nat} (h : 16 < dlen) :
    mediumPhaseOffsets pos dlen =
      ((List.range 16).map (pos + ·) ++ (mediumPhaseOffsets (pos + 16) (dlen - 16)).1,
        (mediumPhaseOffsets (pos + 16) (dlen - 16)).2) := by
  rw [mediumPhaseOffsets]
  simp [h]

lemma mediumPhaseOffsets_exit {pos dlen : Nat} (h : ¬ 16 < dlen) :
    mediumPhaseOffsets pos dlen = ([], pos, dlen) := by
  rw [mediumPhaseOffsets]
  simp [h]

/-- Position/remainder bookkeeping of the bulk loop: final position plus
remainder equals start position plus length, position only advances, the
remainder is at most 64, and is positive when the length was. -/
lemma bulkPhaseOffsets_spec (dlen : Nat) : ∀ pos,
    (bulkPhaseOffsets pos dlen).2.1 + (bulkPhaseOffsets pos dlen).2.2 = pos + dlen ∧
    pos ≤ (bulkPhaseOffsets pos dlen).2.1 ∧
    (bulkPhaseOffsets pos dlen).2.2 ≤ 64 ∧
    (0 < dlen → 0 < (bulkPhaseOffsets pos dlen).2.2) := by
  induction dlen using Nat.strong_induction_on with
  | _ dlen ih =>
    intro pos
    by_cases h : 64 < dlen
    · rw [bulkPhaseOffsets_step h]
      dsimp only
      have := ih (dlen - 64) (by omega) (pos + 64)
      refine ⟨by omega, by omega, by omega, fun _ => ?_⟩
      exact this.2.2.2 (by omega)
    · rw [bulkPhaseOffsets_exit h]
      dsimp only
      exact ⟨rfl, le_refl _, by omega, fun hp => hp⟩

/-- Position/remainder bookkeeping of the 16-byte loop. -/
lemma mediumPhaseOffsets_spec (dlen : Nat) : ∀ pos,
    (mediumPhaseOffsets pos dlen).2.1 + (mediumPhaseOffsets pos dlen).2.2 = pos + dlen ∧
    pos ≤ (mediumPhaseOffsets pos dlen).2.1 ∧
    (mediumPhaseOffsets pos dlen).2.2 ≤ 16 ∧
    (0 < dlen → 0 < (mediumPhaseOffsets pos dlen).2.2) := by
  induction dlen using Nat.strong_induction_on with
  | _ dlen ih =>
    intro pos
    by_cases h : 16 < dlen
    · rw [mediumPhaseOffsets_step h]
      dsimp only
      have := ih (dlen - 16) (by omega) (pos + 16)
      refine ⟨by omega, by omega, by omega, fun _ => ?_⟩
      exact this.2.2.2 (by omega)
    · rw [mediumPhaseOffsets_exit h]
      dsimp only
      exact ⟨rfl, le_refl _, by omega, fun hp => hp⟩

lemma bulkPhaseOffsets_bound (dlen : Nat) : ∀ pos,
    ∀ o ∈ (bulkPhaseOffsets pos dlen).1, pos ≤ o ∧ o < pos + dlen := by
  induction dlen using Nat.strong_induction_on with
  | _ dlen ih =>
    intro pos o ho
    by_cases h : 64 < dlen
    · rw [bulkPhaseOffsets_step h] at ho
      dsimp only at ho
      rcases List.mem_append.mp ho with hl | hr
      · rcases List.mem_map.mp hl with ⟨k, hk, rfl⟩
        have := List.mem_range.mp hk
        omega
      · have := ih (dlen - 64) (by omega) (pos + 64) o hr
        omega
    · rw [bulkPhaseOffsets_exit h] at ho
      simp at ho

lemma mediumPhaseOffsets_bound (dlen : Nat) : ∀ pos,
    ∀ o ∈ (mediumPhaseOffsets pos dlen).1, pos ≤ o ∧ o < pos + dlen := by
  induction dlen using Nat.strong_induction_on with
  | _ dlen ih =>
    intro pos o ho
    by_cases h : 16 < dlen
    · rw [mediumPhaseOffsets_step h] at ho
      dsimp only at ho
      rcases List.mem_append.mp ho with hl | hr
      · rcases List.mem_map.mp hl with ⟨k, hk, rfl⟩
        have := List.mem_range.mp hk
        omega
      · have := ih (dlen - 16) (by omega) (pos + 16) o hr
        omega
    · rw [mediumPhaseOffsets_exit h] at ho
      simp at ho

lemma tailOffsets_bound (pos dlen : Nat) :
    ∀ o ∈ tailOffsets pos dlen, pos ≤ o ∧ o < pos + dlen := by
  intro o ho
  simp only [tailOffsets] at ho
  have hsh : dlen >>> 1 = dlen / 2 := by
    rw [Nat.shiftRight_eq_div_pow]
  by_cases h8 : 8 < dlen
  · rw [if_pos h8] at ho
    rcases List.mem_append.mp ho with hl | hr
    · rcases List.mem_map.mp hl with ⟨k, hk, rfl⟩
      have := List.mem_range.mp hk
      omega
    · rcases List.mem_map.mp hr with ⟨k, hk, rfl⟩
      have := List.mem_range.mp hk
      omega
  · rw [if_neg h8] at ho
    by_cases h3 : 3 < dlen
    · rw [if_pos h3] at ho
      rcases List.mem_append.mp ho with hl | hr
      · rcases List.mem_map.mp hl with ⟨k, hk, rfl⟩
        have := List.mem_range.mp hk
        omega
      · rcases List.mem_map.mp hr with ⟨k, hk, rfl⟩
        have := List.mem_range.mp hk
        omega
    · rw [if_neg h3] at ho
      by_cases h0 : 0 < dlen
      · rw [if_pos h0] at ho
        rw [hsh] at ho
        rcases List.mem_cons.mp ho with rfl | ho
        · omega
        rcases List.mem_cons.mp ho with rfl | ho
        · have : dlen / 2 < dlen := by omega
          omega
        rcases List.mem_cons.mp ho with rfl | ho
        · omega
        · simp at ho
      · rw [if_neg h0] at ho
        simp at ho

lemma bulkPhaseOffsets_cover (dlen : Nat) : ∀ pos i, pos ≤ i →
    i < (bulkPhaseOffsets pos dlen).2.1 → i ∈ (bulkPhaseOffsets pos dlen).1 := by
  induction dlen using Nat.strong_induction_on with
  | _ dlen ih =>
    intro pos i hpi hi
    by_cases h : 64 < dlen
    · rw [bulkPhaseOffsets_step h] at hi ⊢
      dsimp only at hi ⊢
      by_cases hz : i < pos + 64
      · refine List.mem_append_left _ (List.mem_map.mpr ⟨i - pos, List.mem_range.mpr ?_, ?_⟩) <;> omega
      · exact List.mem_append_right _ (ih (dlen - 64) (by omega) (pos + 64) i (by omega) hi)
    · rw [bulkPhaseOffsets_exit h] at hi
      dsimp only at hi
      omega

lemma mediumPhaseOffsets_cover (dlen : Nat) : ∀ pos i, pos ≤ i →
    i < (mediumPhaseOffsets pos dlen).2.1 → i ∈ (mediumPhaseOffsets pos dlen).1 := by
  induction dlen using Nat.strong_induction_on with
  | _ dlen ih =>
    intro pos i hpi hi
    by_cases h : 16 < dlen
    · rw [mediumPhaseOffsets_step h] at hi ⊢
      dsimp only at hi ⊢
      by_cases hz : i < pos + 16
      · refine List.mem_append_left _ (List.mem_map.mpr ⟨i - pos, List.mem_range.mpr ?_, ?_⟩) <;> omega
      · exact List.mem_append_right _ (ih (dlen - 16) (by omega) (pos + 16) i (by omega) hi)
    · rw [mediumPhaseOffsets_exit h] at hi
      dsimp only at hi
      omega

lemma tailOffsets_cover (pos dlen i : Nat) (hle : dlen ≤ 16)
    (h1 : pos ≤ i) (h2 : i < pos + dlen) : i ∈ tailOffsets pos dlen := by
  simp only [tailOffsets]
  have hsh : dlen >>> 1 = dlen / 2 := by
    rw [Nat.shiftRight_eq_div_pow]
  by_cases h8 : 8 < dlen
  · rw [if_pos h8]
    by_cases hz : i < pos + 8
    · refine List.mem_append_left _ (List.mem_map.mpr ⟨i - pos, List.mem_range.mpr ?_, ?_⟩) <;> omega
    · refine List.mem_append_right _
        (List.mem_map.mpr ⟨i - (pos + (dlen - 8)), List.mem_range.mpr ?_, ?_⟩) <;> omega
  · rw [if_neg h8]
    by_cases h3 : 3 < dlen
    · rw [if_pos h3]
      by_cases hz : i < pos + 4
      · refine List.mem_append_left _ (List.mem_map.mpr ⟨i - pos, List.mem_range.mpr ?_, ?_⟩) <;> omega
      · refine List.mem_append_right _
          (List.mem_map.mpr ⟨i - (pos + (dlen - 4)), List.mem_range.mpr ?_, ?_⟩) <;> omega
    · rw [if_neg h3]
      rw [if_pos (by omega : 0 < dlen)]
      rw [hsh]
      interval_cases dlen
      · exact absurd h2 (by omega)
      · have : i = pos := by omega
        simp [this]
      · have : i = pos ∨ i = pos + 1 := by omega
        rcases this with rfl | rfl <;> simp
      · have : i = pos ∨ i = pos + 1 ∨ i = pos + 2 := by omega
        rcases this with rfl | rfl | rfl <;> simp

/-! ### The digest depends only on the bytes at the read offsets -/

lemma readUnaligned64_congr {dat dat' : List Nat} {i : Nat}
    (h : ∀ k, k < 8 → byteAt dat (i + k) = byteAt dat' (i + k)) :
    readUnaligned64 dat i = readUnaligned64 dat' i := by
  have h0 := h 0 (by omega)
  have h1 := h 1 (by omega)
  have h2 := h 2 (by omega)
  have h3 := h 3 (by omega)
  have h4 := h 4 (by omega)
  have h5 := h 5 (by omega)
  have h6 := h 6 (by omega)
  have h7 := h 7 (by omega)
  rw [Nat.add_zero] at h0
  simp only [readUnaligned64]
  rw [h0, h1, h2, h3, h4, h5, h6, h7]

lemma readUnaligned32_congr {dat dat' : List Nat} {i : Nat}
    (h : ∀ k, k < 4 → byteAt dat (i + k) = byteAt dat' (i + k)) :
    readUnaligned32 dat i = readUnaligned32 dat' i := by
  have h0 := h 0 (by omega)
  have h1 := h 1 (by omega)
  have h2 := h 2 (by omega)
  have h3 := h 3 (by omega)
  rw [Nat.add_zero] at h0
  simp only [readUnaligned32]
  rw [h0, h1, h2, h3]

lemma bulkLoop_congr {dat dat' : List Nat} (dlen : Nat) :
    ∀ pos cs ds, (∀ o ∈ (bulkPhaseOffsets pos dlen).1, byteAt dat o = byteAt dat' o) →
      bulkLoop dat pos cs ds dlen = bulkLoop dat' pos cs ds dlen := by
  induction dlen using Nat.strong_induction_on with
  | _ dlen ih =>
    intro pos cs ds h
    by_cases hc : 64 < dlen
    · rw [bulkPhaseOffsets_step hc] at h
      dsimp only at h
      have hmem : ∀ k, k < 64 → byteAt dat (pos + k) = byteAt dat' (pos + k) := fun k hk =>
        h (pos + k) (List.mem_append_left _ (List.mem_map.mpr ⟨k, List.mem_range.mpr hk, rfl⟩))
      have rAt : ∀ off, off + 8 ≤ 64 →
          readUnaligned64 dat (pos + off) = readUnaligned64 dat' (pos + off) := by
        intro off hoff
        apply readUnaligned64_congr
        intro k hk
        rw [Nat.add_assoc]
        exact hmem (off + k) (by omega)
      have r0 : readUnaligned64 dat pos = readUnaligned64 dat' pos := by
        have := rAt 0 (by omega)
        rwa [Nat.add_zero] at this
      rw [bulkLoop_step hc, bulkLoop_step hc]
      rw [r0, rAt 8 (by omega), rAt 16 (by omega), rAt 24 (by omega), rAt 32 (by omega),
        rAt 40 (by omega), rAt 48 (by omega), rAt 56 (by omega)]
      exact ih (dlen - 64) (by omega) (pos + 64) _ _
        (fun o ho => h o (List.mem_append_right _ ho))
    · rw [bulkLoop_exit hc, bulkLoop_exit hc]

lemma mediumLoop_congr {dat dat' : List Nat} (dlen : Nat) :
    ∀ pos cs, (∀ o ∈ (mediumPhaseOffsets pos dlen).1, byteAt dat o = byteAt dat' o) →
      mediumLoop dat pos cs dlen = mediumLoop dat' pos cs dlen := by
  induction dlen using Nat.strong_induction_on with
  | _ dlen ih =>
    intro pos cs h
    by_cases hc : 16 < dlen
    · rw [mediumPhaseOffsets_step hc] at h
      dsimp only at h
      have hmem : ∀ k, k < 16 → byteAt dat (pos + k) = byteAt dat' (pos + k) := fun k hk =>
        h (pos + k) (List.mem_append_left _ (List.mem_map.mpr ⟨k, List.mem_range.mpr hk, rfl⟩))
      have r0 : readUnaligned64 dat pos = readUnaligned64 dat' pos :=
        readUnaligned64_congr fun k hk => hmem k (by omega)
      have r8 : readUnaligned64 dat (pos + 8) = readUnaligned64 dat' (pos + 8) := by
        apply readUnaligned64_congr
        intro k hk
        rw [Nat.add_assoc]
        exact hmem (8 + k) (by omega)
      rw [mediumLoop_step hc, mediumLoop_step hc, r0, r8]
      exact ih (dlen - 16) (by omega) (pos + 16) _
        (fun o ho => h o (List.mem_append_right _ ho))
    · rw [mediumLoop_exit hc, mediumLoop_exit hc]

lemma tailFinalize_congr {dat dat' : List Nat} (pos cs dlen sl : Nat)
    (h : ∀ o ∈ tailOffsets pos dlen, byteAt dat o = byteAt dat' o) :
    tailFinalize dat pos cs dlen sl = tailFinalize dat' pos cs dlen sl := by
  simp only [tailOffsets] at h
  simp only [tailFinalize]
  by_cases h8 : 8 < dlen
  · simp only [if_pos h8] at h ⊢
    have r1 : readUnaligned64 dat pos = readUnaligned64 dat' pos :=
      readUnaligned64_congr fun k hk =>
        h _ (List.mem_append_left _ (List.mem_map.mpr ⟨k, List.mem_range.mpr hk, rfl⟩))
    have r2 : readUnaligned64 dat (pos + (dlen - 8)) = readUnaligned64 dat' (pos + (dlen - 8)) :=
      readUnaligned64_congr fun k hk =>
        h _ (List.mem_append_right _ (List.mem_map.mpr ⟨k, List.mem_range.mpr hk, rfl⟩))
    rw [r1, r2]
  · simp only [if_neg h8] at h ⊢
    by_cases h3 : 3 < dlen
    · simp only [if_pos h3] at h ⊢
      have r1 : readUnaligned32 dat pos = readUnaligned32 dat' pos :=
        readUnaligned32_congr fun k hk =>
          h _ (List.mem_append_left _ (List.mem_map.mpr ⟨k, List.mem_range.mpr hk, rfl⟩))
      have r2 : readUnaligned32 dat (pos + (dlen - 4)) = readUnaligned32 dat' (pos + (dlen - 4)) :=
        readUnaligned32_congr fun k hk =>
          h _ (List.mem_append_right _ (List.mem_map.mpr ⟨k, List.mem_range.mpr hk, rfl⟩))
      rw [r1, r2]
    · simp only [if_neg h3] at h ⊢
      by_cases h0 : 0 < dlen
      · simp only [if_pos h0] at h ⊢
        have b1 := h pos (by simp)
        have b2 := h (pos + dlen >>> 1) (by simp)
        have b3 := h (pos + (dlen - 1)) (by simp)
        rw [b1, b2, b3]
      · simp only [if_neg h0]

/-- The final position and remaining length of the bulk loop depend only on
the start position and length, and match the instrumented offsets. -/
lemma bulkLoop_proj (dat : List Nat) (dlen : Nat) :
    ∀ pos cs ds, (bulkLoop dat pos cs ds dlen).1 = (bulkPhaseOffsets pos dlen).2.1 ∧
      (bulkLoop dat pos cs ds dlen).2.2.2 = (bulkPhaseOffsets pos dlen).2.2 := by
  induction dlen using Nat.strong_induction_on with
  | _ dlen ih =>
    intro pos cs ds
    by_cases h : 64 < dlen
    · rw [bulkLoop_step h, bulkPhaseOffsets_step h]
      dsimp only
      exact ih (dlen - 64) (by omega) (pos + 64) _ _
    · rw [bulkLoop_exit h, bulkPhaseOffsets_exit h]
      exact ⟨rfl, rfl⟩

/-- The final position and remaining length of the 16-byte loop depend only
on the start position and length, and match the instrumented offsets. -/
lemma mediumLoop_proj (dat : List Nat) (dlen : Nat) :
    ∀ pos cs, (mediumLoop dat pos cs dlen).1 = (mediumPhaseOffsets pos dlen).2.1 ∧
      (mediumLoop dat pos cs dlen).2.2 = (mediumPhaseOffsets pos dlen).2.2 := by
  induction dlen using Nat.strong_induction_on with
  | _ dlen ih =>
    intro pos cs
    by_cases h : 16 < dlen
    · rw [mediumLoop_step h, mediumPhaseOffsets_step h]
      dsimp only
      exact ih (dlen - 16) (by omega) (pos + 16) _
    · rw [mediumLoop_exit h, mediumPhaseOffsets_exit h]
      exact ⟨rfl, rfl⟩

lemma circle64f_congr {dat dat' : List Nat} (seed dlen : Nat)
    (h : ∀ o ∈ circle64fOffsets dlen, byteAt dat o = byteAt dat' o) :
    circle64f dat seed dlen = circle64f dat' seed dlen := by
  simp only [circle64fOffsets] at h
  simp only [circle64f]
  by_cases hb : 64 < dlen
  · simp only [if_pos hb] at h ⊢
    have hBulkEq : bulkLoop dat 0 (seed ^^^ pi0) (seed ^^^ pi0) dlen =
        bulkLoop dat' 0 (seed ^^^ pi0) (seed ^^^ pi0) dlen :=
      bulkLoop_congr dlen 0 _ _ (fun o ho => h o (List.mem_append_left _ (List.mem_append_left _ ho)))
    rw [hBulkEq]
    rw [(bulkLoop_proj dat' dlen 0 (seed ^^^ pi0) (seed ^^^ pi0)).1,
      (bulkLoop_proj dat' dlen 0 (seed ^^^ pi0) (seed ^^^ pi0)).2]
    have hMedEq : mediumLoop dat (bulkPhaseOffsets 0 dlen).2.1
        ((bulkLoop dat' 0 (seed ^^^ pi0) (seed ^^^ pi0) dlen).2.1 ^^^
          (bulkLoop dat' 0 (seed ^^^ pi0) (seed ^^^ pi0) dlen).2.2.1)
        (bulkPhaseOffsets 0 dlen).2.2 =
        mediumLoop dat' (bulkPhaseOffsets 0 dlen).2.1
        ((bulkLoop dat' 0 (seed ^^^ pi0) (seed ^^^ pi0) dlen).2.1 ^^^
          (bulkLoop dat' 0 (seed ^^^ pi0) (seed ^^^ pi0) dlen).2.2.1)
        (bulkPhaseOffsets 0 dlen).2.2 :=
      mediumLoop_congr (bulkPhaseOffsets 0 dlen).2.2 (bulkPhaseOffsets 0 dlen).2.1 _
        (fun o ho => h o (List.mem_append_left _ (List.mem_append_right _ ho)))
    rw [hMedEq]
    rw [(mediumLoop_proj dat' (bulkPhaseOffsets 0 dlen).2.2 (bulkPhaseOffsets 0 dlen).2.1 _).1,
      (mediumLoop_proj dat' (bulkPhaseOffsets 0 dlen).2.2 (bulkPhaseOffsets 0 dlen).2.1 _).2]
    exact tailFinalize_congr _ _ _ _
      (fun o ho => h o (List.mem_append_right _ ho))
  · simp only [if_neg hb] at h ⊢
    rw [List.nil_append] at h
    have hMedEq : mediumLoop dat 0 (seed ^^^ pi0) dlen = mediumLoop dat' 0 (seed ^^^ pi0) dlen :=
      mediumLoop_congr dlen 0 _ (fun o ho => h o (List.mem_append_left _ ho))
    rw [hMedEq]
    rw [(mediumLoop_proj dat' dlen 0 (seed ^^^ pi0)).1,
      (mediumLoop_proj dat' dlen 0 (seed ^^^ pi0)).2]
    exact tailFinalize_congr _ _ _ _
      (fun o ho => h o (List.mem_append_right _ ho))

lemma circle64fShortInput_congr {dat dat' : List Nat} (seed dlen : Nat)
    (h : ∀ o, o < dlen → byteAt dat o = byteAt dat' o) :
    circle64fShortInput dat seed dlen = circle64fShortInput dat' seed dlen := by
  simp only [circle64fShortInput]
  have hMedEq : mediumLoop dat 0 (seed ^^^ pi0) dlen = mediumLoop dat' 0 (seed ^^^ pi0) dlen := by
    apply mediumLoop_congr dlen 0
    intro o ho
    have hbd := mediumPhaseOffsets_bound dlen 0 o ho
    exact h o (by omega)
  rw [hMedEq]
  rw [(mediumLoop_proj dat' dlen 0 (seed ^^^ pi0)).1,
    (mediumLoop_proj dat' dlen 0 (seed ^^^ pi0)).2]
  apply tailFinalize_congr
  intro o ho
  have hbd := tailOffsets_bound _ _ o ho
  have hsp := (mediumPhaseOffsets_spec dlen 0).1
  exact h o (by omega)

lemma circle64fOffsets_bound (dlen : Nat) : ∀ o ∈ circle64fOffsets dlen, o < dlen := by
  intro o ho
  simp only [circle64fOffsets] at ho
  by_cases hb : 64 < dlen
  · simp only [if_pos hb] at ho
    rcases List.mem_append.mp ho with h12 | h4
    · rcases List.mem_append.mp h12 with h1 | h3
      · have := bulkPhaseOffsets_bound dlen 0 o h1
        omega
      · have hB := (bulkPhaseOffsets_spec dlen 0).1
        have := mediumPhaseOffsets_bound (bulkPhaseOffsets 0 dlen).2.2
          (bulkPhaseOffsets 0 dlen).2.1 o h3
        omega
    · have hB := (bulkPhaseOffsets_spec dlen 0).1
      have hM := (mediumPhaseOffsets_spec (bulkPhaseOffsets 0 dlen).2.2
        (bulkPhaseOffsets 0 dlen).2.1).1
      have := tailOffsets_bound _ _ o h4
      omega
  · simp only [if_neg hb] at ho
    rw [List.nil_append] at ho
    rcases List.mem_append.mp ho with h3 | h4
    · have := mediumPhaseOffsets_bound dlen 0 o h3
      omega
    · have hM := (mediumPhaseOffsets_spec dlen 0).1
      have := tailOffsets_bound _ _ o h4
      omega

lemma circle64fOffsets_cover (dlen : Nat) : ∀ i, i < dlen → i ∈ circle64fOffsets dlen := by
  intro i hi
  simp only [circle64fOffsets]
  by_cases hb : 64 < dlen
  · simp only [if_pos hb]
    have hB1 := (bulkPhaseOffsets_spec dlen 0).1
    have hM1 := (mediumPhaseOffsets_spec (bulkPhaseOffsets 0 dlen).2.2
      (bulkPhaseOffsets 0 dlen).2.1).1
    have hM2 := (mediumPhaseOffsets_spec (bulkPhaseOffsets 0 dlen).2.2
      (bulkPhaseOffsets 0 dlen).2.1).2.1
    have hM3 := (mediumPhaseOffsets_spec (bulkPhaseOffsets 0 dlen).2.2
      (bulkPhaseOffsets 0 dlen).2.1).2.2.1
    by_cases hz1 : i < (bulkPhaseOffsets 0 dlen).2.1
    · exact List.mem_append_left _
        (List.mem_append_left _ (bulkPhaseOffsets_cover dlen 0 i (by omega) hz1))
    by_cases hz2 : i < (mediumPhaseOffsets (bulkPhaseOffsets 0 dlen).2.1
        (bulkPhaseOffsets 0 dlen).2.2).2.1
    · exact List.mem_append_left _
        (List.mem_append_right _
          (mediumPhaseOffsets_cover (bulkPhaseOffsets 0 dlen).2.2
            (bulkPhaseOffsets 0 dlen).2.1 i (by omega) hz2))
    · exact List.mem_append_right _
        (tailOffsets_cover
          (mediumPhaseOffsets (bulkPhaseOffsets 0 dlen).2.1 (bulkPhaseOffsets 0 dlen).2.2).2.1
          (mediumPhaseOffsets (bulkPhaseOffsets 0 dlen).2.1 (bulkPhaseOffsets 0 dlen).2.2).2.2
          i (by omega) (by omega) (by omega))
  · simp only [if_neg hb]
    simp only [List.nil_append]
    have hM1 := (mediumPhaseOffsets_spec dlen 0).1
    have hM2 := (mediumPhaseOffsets_spec dlen 0).2.1
    have hM3 := (mediumPhaseOffsets_spec dlen 0).2.2.1
    by_cases hz2 : i < (mediumPhaseOffsets 0 dlen).2.1
    · exact List.mem_append_left _ (mediumPhaseOffsets_cover dlen 0 i (by omega) hz2)
    · exact List.mem_append_right _
        (tailOffsets_cover (mediumPhaseOffsets 0 dlen).2.1 (mediumPhaseOffsets 0 dlen).2.2
          i (by omega) (by omega) (by omega))

lemma mediumLoop_rem_facts (dat : List Nat) (pos cs rem : Nat) :
    (mediumLoop dat pos cs rem).2.2 ≤ 16 ∧
      (0 < rem → 0 < (mediumLoop dat pos cs rem).2.2) := by
  have hp := (mediumLoop_proj dat rem pos cs).2
  have hs := mediumPhaseOffsets_spec rem pos
  constructor
  · rw [hp]
    exact hs.2.2.1
  · intro h0
    rw [hp]
    exact hs.2.2.2 h0

/-- Witness for C4 at a concrete input of 72 increasing bytes. -/
theorem circle64f_bulk_phase_witness :
    64 < 65 ∧ 64 < 70 ∧
      (circle64f (List.range 72) 1 65 =
        (let t := bulkLoop (List.range 72) 0 (1 ^^^ pi0) (1 ^^^ pi0) 65
         let s1 := mediumLoop (List.range 72) t.1 (t.2.1 ^^^ t.2.2.1) t.2.2.2
         tailFinalize (List.range 72) s1.1 s1.2.1 s1.2.2 65) ∧
      bulkLoop (List.range 72) 0 2 3 70 =
        bulkLoop (List.range 72) (0 + 64)
          (mix64 (readUnaligned64 (List.range 72) 0 ^^^ pi1)
              (readUnaligned64 (List.range 72) (0 + 8) ^^^ 2) ^^^
            mix64 (readUnaligned64 (List.range 72) (0 + 16) ^^^ pi2)
              (readUnaligned64 (List.range 72) (0 + 24) ^^^ 2))
          (mix64 (readUnaligned64 (List.range 72) (0 + 32) ^^^ pi3)
              (readUnaligned64 (List.range 72) (0 + 40) ^^^ 3) ^^^
            mix64 (readUnaligned64 (List.range 72) (0 + 48) ^^^ pi4)
              (readUnaligned64 (List.range 72) (0 + 56) ^^^ 3))
          (70 - 64) ∧
      1 ≤ (bulkLoop (List.range 72) 0 2 3 70).2.2.2 ∧
      (bulkLoop (List.range 72) 0 2 3 70).2.2.2 ≤ 64) :=
  ⟨by decide, by decide,
    circle64f_bulk_phase (List.range 72) 1 65 0 2 3 70 (by decide) (by decide)⟩

/-- Claim C9: every byte offset read by `circle64f` on an input of length
`dlen` lies within `0..dlen-1`, and consequently the digests of both code
paths depend only on the first `dlen` bytes of memory: two inputs that
agree on all offsets below `dlen` hash identically (the computation itself
is a total function of the input and seed). -/
theorem circle64f_reads_within_length (dat dat' : List Nat) (seed dlen : Nat)
    (h : ∀ o, o < dlen → byteAt dat o = byteAt dat' o) :
    (∀ o ∈ circle64fOffsets dlen, o < dlen) ∧
    circle64f dat seed dlen = circle64f dat' seed dlen ∧
    circle64fShortInput dat seed dlen = circle64fShortInput dat' seed dlen := by
  refine ⟨circle64fOffsets_bound dlen, ?_, circle64fShortInput_congr seed dlen h⟩
  exact circle64f_congr seed dlen (fun o ho => h o (circle64fOffsets_bound dlen o ho))

/-- Witness for C9: a 3-byte input and the same bytes followed by junk. -/
theorem circle64f_reads_within_length_witness :
    (∀ o, o < 3 → byteAt [1, 2, 3] o = byteAt [1, 2, 3, 99] o) ∧
      ((∀ o ∈ circle64fOffsets 3, o < 3) ∧
        circle64f [1, 2, 3] 7 3 = circle64f [1, 2, 3, 99] 7 3 ∧
        circle64fShortInput [1, 2, 3] 7 3 = circle64fShortInput [1, 2, 3, 99] 7 3) :=
  ⟨by decide, circle64f_reads_within_length [1, 2, 3] [1, 2, 3, 99] 7 3 (by decide)⟩

/-- Claim C10: when the bulk loop is entered (`dlen > 64`) it exits with a
remaining length in 1..64; the 16-byte loop exits with remaining length at
most 16, positive whenever it started positive; the remaining length at the
tail is 0 exactly when the whole input is empty; and every offset below
`dlen` is among the offsets read, so every byte of the input is read at
least once. -/
theorem circle64f_loop_invariants (dat : List Nat) (seed dlen pos cs rem : Nat)
    (hrem : 1 ≤ rem) :
    (64 < dlen →
      1 ≤ (bulkLoop dat 0 (seed ^^^ pi0) (seed ^^^ pi0) dlen).2.2.2 ∧
      (bulkLoop dat 0 (seed ^^^ pi0) (seed ^^^ pi0) dlen).2.2.2 ≤ 64) ∧
    (1 ≤ (mediumLoop dat pos cs rem).2.2 ∧ (mediumLoop dat pos cs rem).2.2 ≤ 16) ∧
    ((let s0 : Nat × Nat × Nat :=
        if 64 < dlen then
          let t := bulkLoop dat 0 (seed ^^^ pi0) (seed ^^^ pi0) dlen
          (t.1, t.2.1 ^^^ t.2.2.1, t.2.2.2)
        else (0, seed ^^^ pi0, dlen)
      let s1 := mediumLoop dat s0.1 s0.2.1 s0.2.2
      s1.2.2) = 0 ↔ dlen = 0) ∧
    (∀ i, i < dlen → i ∈ circle64fOffsets dlen) := by
  refine ⟨?_, ?_, ?_, circle64fOffsets_cover dlen⟩
  · intro hb
    exact ⟨bulkLoop_rem_pos dat dlen 0 _ _ (by omega), bulkLoop_rem_le dat dlen 0 _ _⟩
  · exact ⟨(mediumLoop_rem_facts dat pos cs rem).2 (by omega),
      (mediumLoop_rem_facts dat pos cs rem).1⟩
  · by_cases hb : 64 < dlen
    · simp only [if_pos hb]
      constructor
      · intro h0
        exfalso
        have h1 := bulkLoop_rem_pos dat dlen 0 (seed ^^^ pi0) (seed ^^^ pi0) (by omega)
        have h2 := (mediumLoop_rem_facts dat
          (bulkLoop dat 0 (seed ^^^ pi0) (seed ^^^ pi0) dlen).1
          ((bulkLoop dat 0 (seed ^^^ pi0) (seed ^^^ pi0) dlen).2.1 ^^^
            (bulkLoop dat 0 (seed ^^^ pi0) (seed ^^^ pi0) dlen).2.2.1)
          (bulkLoop dat 0 (seed ^^^ pi0) (seed ^^^ pi0) dlen).2.2.2).2 (by omega)
        omega
      · intro h0
        exact absurd h0 (by omega)
    · simp only [if_neg hb]
      constructor
      · intro h0
        by_contra hne
        have := (mediumLoop_rem_facts dat 0 (seed ^^^ pi0) dlen).2 (by omega)
        omega
      · intro h0
        subst h0
        rw [mediumLoop_exit (by omega)]

/-- Witness for C10 at a 1-byte input, with the 16-byte loop started at
remaining length 2. -/
theorem circle64f_loop_invariants_witness :
    1 ≤ 2 ∧
      ((64 < 1 →
        1 ≤ (bulkLoop [5] 0 (9 ^^^ pi0) (9 ^^^ pi0) 1).2.2.2 ∧
        (bulkLoop [5] 0 (9 ^^^ pi0) (9 ^^^ pi0) 1).2.2.2 ≤ 64) ∧
      (1 ≤ (mediumLoop [5] 0 4 2).2.2 ∧ (mediumLoop [5] 0 4 2).2.2 ≤ 16) ∧
      ((let s0 : Nat × Nat × Nat :=
          if 64 < 1 then
            let t := bulkLoop [5] 0 (9 ^^^ pi0) (9 ^^^ pi0) 1
            (t.1, t.2.1 ^^^ t.2.2.1, t.2.2.2)
          else (0, 9 ^^^ pi0, 1)
        let s1 := mediumLoop [5] s0.1 s0.2.1 s0.2.2
        s1.2.2) = 0 ↔ 1 = 0) ∧
      (∀ i, i < 1 → i ∈ circle64fOffsets 1)) :=
  ⟨by decide, circle64f_loop_invariants [5] 9 1 0 4 2 (by decide)⟩

end CircleHash
